import Mathlib

/-!
Verification of the runtime multiple-dispatch core (`annotation/overload.py`).

The embedding is parametrised by an abstract universe `Ty` of Python classes
together with a boolean subclass test `issub` (Python's `issubclass`) and a
distinguished element `emptyAnn` standing for the sentinel
`inspect.Parameter.empty` (itself a class in Python, hence an element of the
same universe).  A Python function object is modelled as a `Func`: an identity
tag (`uid`, standing for object identity, i.e. Python `==` on functions) plus
the ordered list of its parameter annotations (`sig`).  The virtual marker
`_empty_func` is modelled as `none : Option (Func Ty)`; every concrete
function is `some f`.

`FunctionHeap` becomes the mutual inductive `Heap`/`Forest`: a node holds a
root (`Option (Func Ty)`) and its set of children.  Python stores children in
a `set`, whose iteration order is unspecified; the embedding determinises it
as an insertion-ordered sequence, which is one of the orders the running
program can exhibit.  Mutation-plus-exception in `push` is modelled by
returning the tree as mutated so far together with an error flag
(`true` = `AmbiguousFunction` raised).
-/


namespace Overload

structure Func (Ty : Type) where
  uid : Nat
  sig : List Ty
deriving DecidableEq

section Model

variable {Ty : Type} [DecidableEq Ty] (issub : Ty → Ty → Bool) (emptyAnn : Ty)

/-- Source `_ann_cmp(ann1, ann2)`: returns `ann1 != ann2 and (ann2 ==
_empty_annotation or issubclass(ann1, ann2))`. -/
def annCmp (a b : Ty) : Bool :=
  decide (a ≠ b) && (decide (b = emptyAnn) || issub a b)

/-- Body of `_func_eq` on the two signatures (lines 86-93 of the source):
if all annotations agree the functions are "equal"; otherwise build, over the
differing positions, row #1 (`_ann_cmp(ann1, ann2)`), row #2
(`_ann_cmp(ann2, ann1)`) and their pointwise disjunction, and return whether
the combined row differs from both rows. -/
def sigEqTab (sa sb : List Ty) : Bool :=
  if (sa.zip sb).all (fun p => decide (p.1 = p.2)) then true
  else
    let diffs := (sa.zip sb).filter (fun p => decide (p.1 ≠ p.2))
    let row1 := diffs.map (fun p => annCmp issub emptyAnn p.1 p.2)
    let row2 := diffs.map (fun p => annCmp issub emptyAnn p.2 p.1)
    let comb := diffs.map
      (fun p => annCmp issub emptyAnn p.1 p.2 || annCmp issub emptyAnn p.2 p.1)
    !(decide (comb = row1) || decide (comb = row2))

/-- `_func_eq` on two concrete (non-virtual) functions: identity first, then
the signature table test. -/
def funcEqCore (f g : Func Ty) : Bool :=
  if f = g then true
  else sigEqTab issub emptyAnn f.sig g.sig

/-- Source `_func_eq` including the `_empty_func` special cases (lines 80-83):
identical objects are equal, and the virtual marker is equal to nothing
else. -/
def funcEq : Option (Func Ty) → Option (Func Ty) → Bool
  | some f, some g => funcEqCore issub emptyAnn f g
  | none, none => true
  | _, _ => false

/-- The per-position loop of `_func_cmp` (lines 115-122): every position must have
equal annotations, an unconstrained right annotation, or a subclass
relation. -/
def sigCmp (sa sb : List Ty) : Bool :=
  (sa.zip sb).all
    (fun p => decide (p.1 = p.2) || (decide (p.2 = emptyAnn) || issub p.1 p.2))

/-- `_func_cmp`: "func1's annotations are at least as strong as func2's",
including the identity and `_empty_func` special cases (lines 109-114). -/
def funcCmp : Option (Func Ty) → Option (Func Ty) → Bool
  | some f, some g => if f = g then false else sigCmp issub emptyAnn f.sig g.sig
  | none, _ => false
  | some _, none => true

/-- Source `_check_func_types(func, types)`: every concrete argument type satisfies
the annotation at its position, positions with the empty annotation being
skipped.  The virtual marker `_empty_func` has the single annotation-free
`*args` parameter, so it accepts everything. -/
def checkTypes : Option (Func Ty) → List Ty → Bool
  | none, _ => true
  | some f, types =>
      (types.zip f.sig).all
        (fun p => decide (p.2 = emptyAnn) || (decide (p.1 = p.2) || issub p.1 p.2))

end Model

mutual

inductive Heap (Ty : Type) where
  | node (root : Option (Func Ty)) (childs : Forest Ty)
deriving DecidableEq

inductive Forest (Ty : Type) where
  | nil
  | cons (h : Heap Ty) (t : Forest Ty)
deriving DecidableEq

end

section TreeOps

variable {Ty : Type} [DecidableEq Ty] (issub : Ty → Ty → Bool) (emptyAnn : Ty)

/-- The `_root` attribute of a heap node. -/
def Heap.root : Heap Ty → Option (Func Ty)
  | .node r _ => r

/-- The `_childs` attribute of a heap node, as a list. -/
def Forest.toList : Forest Ty → List (Heap Ty)
  | .nil => []
  | .cons c t => c :: t.toList

/-- Appending to the child collection (`self._childs.add(...)`). -/
def Forest.append : Forest Ty → Forest Ty → Forest Ty
  | .nil, t => t
  | .cons c s, t => .cons c (s.append t)

mutual

/-- Source `FunctionHeap.push` (lines 151-174).  Returns the tree as left by the
call together with an error flag; `true` means `AmbiguousFunction` was
raised. -/
def Heap.push (f : Func Ty) : Heap Ty → Heap Ty × Bool
  | .node root cs =>
    if funcEq issub emptyAnn (some f) root then (.node root cs, true)
    else if root = none then
      if (Forest.toList cs).all (fun c => funcCmp issub emptyAnn c.root (some f)) then
        (.node (some f) cs, false)
      else (.node root cs, false)
    else if funcCmp issub emptyAnn (some f) root then
      if (Forest.toList cs).any (fun c => funcEq issub emptyAnn (some f) c.root) then
        (.node root cs, true)
      else
        match Forest.pushInto f cs with
        | some (cs', e) => (.node root cs', e)
        | none => (.node root (cs.append (.cons (.node (some f) .nil) .nil)), false)
    else if funcCmp issub emptyAnn root (some f) then
      (.node (some f) (.cons (.node root cs) .nil), false)
    else
      (.node none (.cons (.node root cs) (.cons (.node (some f) .nil) .nil)), false)

/-- The `for child in self._childs` loop of `push` (lines 160-163): recurse
into the first child whose root the new function dominates; `none` when no
child qualifies. -/
def Forest.pushInto (f : Func Ty) : Forest Ty → Option (Forest Ty × Bool)
  | .nil => none
  | .cons c t =>
    if funcCmp issub emptyAnn (some f) c.root then
      match Heap.push f c with
      | (c', e) => some (.cons c' t, e)
    else
      match Forest.pushInto f t with
      | some (t', e) => some (.cons c t', e)
      | none => none

end

mutual

/-- The descent loop of `FunctionHeap.find` (lines 187-194): repeatedly
rescan the current node's children and move to the child accepting the
concrete types, until none accepts.  Python's `for` pass reassigns
`current_heap` to every accepting child in iteration order, so the pass ends
at the last accepting child of the sequence. -/
def Heap.descend (types : List Ty) : Heap Ty → Heap Ty
  | .node r cs =>
    match Forest.descendInto types cs with
    | some h => h
    | none => .node r cs

/-- One pass over the children: the result of continuing the descent from the
last child of the sequence that accepts `types`, or `none` when no child
accepts. -/
def Forest.descendInto (types : List Ty) : Forest Ty → Option (Heap Ty)
  | .nil => none
  | .cons c t =>
    match Forest.descendInto types t with
    | some h => some h
    | none =>
      if checkTypes issub emptyAnn c.root types then
        some (Heap.descend types c)
      else none

end

/-- Source `FunctionHeap.find` (lines 176-197): `none` models raising
`FunctionNotFound`. -/
def Heap.find (types : List Ty) (h : Heap Ty) : Option (Func Ty) :=
  if h.root.isSome && !(checkTypes issub emptyAnn h.root types) then none
  else (Heap.descend issub emptyAnn types h).root

end TreeOps

section Registry

variable {Ty : Type} [DecidableEq Ty] (issub : Ty → Ty → Bool) (emptyAnn : Ty)

/-- Association-list lookup, modelling Python `dict` access. -/
def alookup {κ β : Type} [DecidableEq κ] (k : κ) : List (κ × β) → Option β
  | [] => none
  | (k', v) :: t => if k = k' then some v else alookup k t

/-- Association-list update, modelling Python `dict` assignment (insertion
order preserved, existing key overwritten in place). -/
def aset {κ β : Type} [DecidableEq κ] (k : κ) (v : β) : List (κ × β) → List (κ × β)
  | [] => [(k, v)]
  | (k', v') :: t => if k = k' then (k, v) :: t else (k', v') :: aset k v t

/-- The mutable state of an `OverloadedFunction`: `_functions` (arity → heap) and
`_function_cache` (type tuple → resolved function). -/
structure OFun (Ty : Type) where
  functions : List (Nat × Heap Ty)
  cache : List (List Ty × Func Ty)
deriving DecidableEq

/-- A freshly constructed `OverloadedFunction`. -/
def ofInit : OFun Ty := ⟨[], []⟩

/-- Source `OverloadedFunction.add_function` (lines 207-216), for fixed-arity
functions.  The error flag `true` models an `AmbiguousFunction` escaping the
call; the returned state reflects the in-place mutation performed up to that
point. -/
def addFunction (s : OFun Ty) (f : Func Ty) : OFun Ty × Bool :=
  match alookup f.sig.length s.functions with
  | none =>
      ({ functions := aset f.sig.length (Heap.node (some f) .nil) s.functions,
         cache := [] }, false)
  | some h =>
      if (Heap.push issub emptyAnn f h).2 then
        ({ functions := aset f.sig.length (Heap.push issub emptyAnn f h).1 s.functions,
           cache := s.cache }, true)
      else
        ({ functions := aset f.sig.length (Heap.push issub emptyAnn f h).1 s.functions,
           cache := [] }, false)

/-- Source `OverloadedFunction.__call__` (lines 218-227), at the level of the
argument-type tuple.  The second component is the resolved function, `none`
modelling a `FunctionNotFound` escaping the call. -/
def call (s : OFun Ty) (types : List Ty) : OFun Ty × Option (Func Ty) :=
  match alookup types s.cache with
  | some f => (s, some f)
  | none =>
      match alookup types.length s.functions with
      | none => (s, none)
      | some h =>
          match Heap.find issub emptyAnn types h with
          | none => (s, none)
          | some f => ({ s with cache := aset types f s.cache }, some f)

/-- Resolution through the tree alone, bypassing the cache: the behaviour of
`__call__` on a cold cache (lines 222-225). -/
def coldResolve (fns : List (Nat × Heap Ty)) (types : List Ty) : Option (Func Ty) :=
  match alookup types.length fns with
  | none => none
  | some h => Heap.find issub emptyAnn types h

end Registry

section TreeAux

variable {Ty : Type} [DecidableEq Ty] (issub : Ty → Ty → Bool) (emptyAnn : Ty)

mutual

/-- All concrete variants held in a subtree (its representative when
concrete, plus everything below). -/
def Heap.vars : Heap Ty → List (Func Ty)
  | .node (some f) cs => f :: Forest.varsF cs
  | .node none cs => Forest.varsF cs

/-- All concrete variants held in a collection of subtrees. -/
def Forest.varsF : Forest Ty → List (Func Ty)
  | .nil => []
  | .cons c t => Heap.vars c ++ Forest.varsF t

end

mutual

/-- The tree-order invariant, checked at every node: every variant held
anywhere in the node's subtree either equals the node's representative or
dominates it in the `_func_cmp` order. -/
def Heap.invB : Heap Ty → Bool
  | .node r cs =>
    (Heap.vars (.node r cs)).all
      (fun g => decide (some g = r) || funcCmp issub emptyAnn (some g) r)
      && Forest.invBF cs

/-- The tree-order invariant on a collection of subtrees. -/
def Forest.invBF : Forest Ty → Bool
  | .nil => true
  | .cons c t => Heap.invB c && Forest.invBF t

end

/-- All variants of the subtree have arity `n`. -/
def Heap.unifB (n : Nat) (h : Heap Ty) : Bool :=
  (Heap.vars h).all (fun g => decide (g.sig.length = n))

/-- All variants of the subtrees have arity `n`. -/
def Forest.unifBF (n : Nat) (t : Forest Ty) : Bool :=
  (Forest.varsF t).all (fun g => decide (g.sig.length = n))

end TreeAux

section TreeInd

variable {Ty : Type} (PH : Heap Ty → Prop) (PF : Forest Ty → Prop)

mutual

/-- Mutual structural induction for `Heap`. -/
def Heap.indMut (hnode : ∀ r cs, PF cs → PH (.node r cs)) (hnil : PF .nil)
    (hcons : ∀ c t, PH c → PF t → PF (.cons c t)) : ∀ h : Heap Ty, PH h
  | .node r cs => hnode r cs (Forest.indMut hnode hnil hcons cs)

/-- Mutual structural induction for `Forest`. -/
def Forest.indMut (hnode : ∀ r cs, PF cs → PH (.node r cs)) (hnil : PF .nil)
    (hcons : ∀ c t, PH c → PF t → PF (.cons c t)) : ∀ t : Forest Ty, PF t
  | .nil => hnil
  | .cons c t =>
      hcons c t (Heap.indMut hnode hnil hcons c) (Forest.indMut hnode hnil hcons t)

end

end TreeInd

section Reachable

variable {Ty : Type} [DecidableEq Ty] (issub : Ty → Ty → Bool) (emptyAnn : Ty)

/-- The states an `OverloadedFunction` can reach: freshly constructed, or the
state left by any `add_function` or `__call__` (successful or raising). -/
inductive Reach : OFun Ty → Prop where
  | init : Reach ofInit
  | add (s : OFun Ty) (f : Func Ty) : Reach s → Reach (addFunction issub emptyAnn s f).1
  | invoke (s : OFun Ty) (types : List Ty) :
      Reach s → Reach (call issub emptyAnn s types).1

end Reachable

/-- A small concrete universe of Python classes for the concrete scenarios:
`int`, `str`, `float`, `bool`, plus the annotation sentinel
`inspect.Parameter.empty`. -/
inductive PyTy where
  | int
  | str
  | float
  | bool
  | empty
deriving DecidableEq, Fintype

/-- The `issubclass` relation on the concrete universe: reflexive, plus `bool` is a
subclass of `int`; the sentinel class is unrelated to the others. -/
def pyIssub (a b : PyTy) : Bool :=
  decide (a = b) || (decide (a = PyTy.bool) && decide (b = PyTy.int))

/-- Scenario variant `f(a:int, b)`. -/
def fIntAny : Func PyTy := ⟨1, [PyTy.int, PyTy.empty]⟩

/-- Scenario variant `f(a, b:str)`. -/
def fAnyStr : Func PyTy := ⟨2, [PyTy.empty, PyTy.str]⟩

/-- Scenario variant `f(a:int, b:str)`. -/
def fIntStr : Func PyTy := ⟨3, [PyTy.int, PyTy.str]⟩

/-- Scenario variant `g(a:int, b)`. -/
def gIntAny : Func PyTy := ⟨4, [PyTy.int, PyTy.empty]⟩

/-- Scenario variant `g(a, b:int)`. -/
def gAnyInt : Func PyTy := ⟨5, [PyTy.empty, PyTy.int]⟩

/-- Scenario variant `p(a:int)`. -/
def pInt : Func PyTy := ⟨10, [PyTy.int]⟩

/-- Scenario variant `q(a:str)`. -/
def qStr : Func PyTy := ⟨11, [PyTy.str]⟩

/-- Scenario variant `a(a:bool)`. -/
def aBool : Func PyTy := ⟨12, [PyTy.bool]⟩

/-- Scenario variant `r(a)` (catch-all). -/
def rAny : Func PyTy := ⟨20, [PyTy.empty]⟩

/-- Scenario variant `w(a:int)`. -/
def wInt : Func PyTy := ⟨21, [PyTy.int]⟩

section SpecSets

variable {Ty : Type} [DecidableEq Ty] (issub : Ty → Ty → Bool) (emptyAnn : Ty)

/-- Position `i` is a differing position at which the first signature is
pointwise more specific than the second (`_ann_cmp` holds there). -/
def specAtB (sa sb : List Ty) (i : Nat) : Bool :=
  match (sa.zip sb)[i]? with
  | some p => decide (p.1 ≠ p.2) && annCmp issub emptyAnn p.1 p.2
  | none => false

/-- The set of differing positions at which the first signature is pointwise
more specific than the second. -/
def moreSpecSet (sa sb : List Ty) : Finset Nat :=
  (Finset.range (sa.zip sb).length).filter (fun i => specAtB issub emptyAnn sa sb i = true)

end SpecSets

/-- Registry state with only the catch-all `r(a)` registered and the
resolution for an `int` argument already cached. -/
def sCachedInt : OFun PyTy :=
  (call pyIssub PyTy.empty (addFunction pyIssub PyTy.empty ofInit rAny).1 [PyTy.int]).1

/-- Registry state with only the two-parameter `g(a:int, b)` registered. -/
def sOneInt2 : OFun PyTy := (addFunction pyIssub PyTy.empty ofInit gIntAny).1

/-- Registry state with `f(a:int, b)` and `f(a:int, b:str)` registered (the
registrable part of the three-variant scenario). -/
def sC1 : OFun PyTy :=
  (addFunction pyIssub PyTy.empty (addFunction pyIssub PyTy.empty ofInit fIntAny).1 fIntStr).1

/-- Registry state after registering `p(a:int)`, `q(a:str)` and `a(a:bool)`
in that order (the last is silently dropped by the virtual-node gap). -/
def sC4 : OFun PyTy :=
  (addFunction pyIssub PyTy.empty
    (addFunction pyIssub PyTy.empty
      (addFunction pyIssub PyTy.empty ofInit pInt).1 qStr).1 aBool).1

section BasicLemmas

variable {Ty : Type} [DecidableEq Ty] (issub : Ty → Ty → Bool) (emptyAnn : Ty)

theorem funcEq_some_none (f : Func Ty) : funcEq issub emptyAnn (some f) none = false := rfl

theorem push_node (f : Func Ty) (root : Option (Func Ty)) (cs : Forest Ty) :
    Heap.push issub emptyAnn f (.node root cs) =
    (if funcEq issub emptyAnn (some f) root then (.node root cs, true)
    else if root = none then
      if (Forest.toList cs).all (fun c => funcCmp issub emptyAnn c.root (some f)) then
        (.node (some f) cs, false)
      else (.node root cs, false)
    else if funcCmp issub emptyAnn (some f) root then
      if (Forest.toList cs).any (fun c => funcEq issub emptyAnn (some f) c.root) then
        (.node root cs, true)
      else
        match Forest.pushInto issub emptyAnn f cs with
        | some (cs', e) => (.node root cs', e)
        | none => (.node root (cs.append (.cons (.node (some f) .nil) .nil)), false)
    else if funcCmp issub emptyAnn root (some f) then
      (.node (some f) (.cons (.node root cs) .nil), false)
    else
      (.node none (.cons (.node root cs) (.cons (.node (some f) .nil) .nil)), false)) := by
  rw [Heap.push]

/-- A push that raises `AmbiguousFunction` leaves the tree exactly as it
was, at every recursion depth. -/
theorem push_err_unchanged (f : Func Ty) :
    ∀ h : Heap Ty,
      (Heap.push issub emptyAnn f h).2 = true → (Heap.push issub emptyAnn f h).1 = h := by
  refine Heap.indMut
    (fun h =>
      (Heap.push issub emptyAnn f h).2 = true → (Heap.push issub emptyAnn f h).1 = h)
    (fun t => ∀ t' e,
      Forest.pushInto issub emptyAnn f t = some (t', e) → e = true → t' = t)
    ?_ ?_ ?_
  · intro r cs ih
    rw [push_node]
    split
    · intro _; rfl
    · split
      · split
        · intro hc; cases hc
        · intro hc; cases hc
      · split
        · split
          · intro _; rfl
          · split
            · rename_i cs2 e2 hm
              intro he
              cases he
              show Heap.node r cs2 = Heap.node r cs
              rw [ih cs2 true hm rfl]
            · intro hc
              simp at hc
        · split
          · intro hc; cases hc
          · intro hc; cases hc
  · intro t' e hc; cases hc
  · intro c t ihc iht t' e
    rw [Forest.pushInto]
    split
    · intro hsome he
      cases hsome
      rw [ihc he]
    · split
      · rename_i cs2 e2 hm
        intro hsome he
        cases hsome
        rw [iht cs2 _ hm he]
      · intro hc
        cases hc

theorem alookup_aset_self {κ β : Type} [DecidableEq κ] (k : κ) (v : β) :
    ∀ l : List (κ × β), alookup k l = some v → aset k v l = l := by
  intro l
  induction l with
  | nil => intro hc; cases hc
  | cons p t ih =>
    rcases p with ⟨k', v'⟩
    rw [alookup, aset]
    split
    · rename_i hk
      intro hv
      cases hv
      rw [hk]
    · intro hl
      rw [ih hl]

theorem mem_aset {κ β : Type} [DecidableEq κ] (k : κ) (v : β) :
    ∀ l : List (κ × β), ∀ p ∈ aset k v l, p = (k, v) ∨ p ∈ l := by
  intro l
  induction l with
  | nil =>
    intro p hp
    rw [aset] at hp
    exact Or.inl (List.mem_singleton.mp hp)
  | cons q t ih =>
    intro p hp
    rw [aset] at hp
    split at hp
    · rcases List.mem_cons.mp hp with h | h
      · exact Or.inl h
      · exact Or.inr (List.mem_cons_of_mem _ h)
    · rcases List.mem_cons.mp hp with h | h
      · exact Or.inr (h ▸ List.mem_cons_self _ _)
      · rcases ih p h with h' | h'
        · exact Or.inl h'
        · exact Or.inr (List.mem_cons_of_mem _ h')

/-- An `add_function` call out of which `AmbiguousFunction` propagates leaves
the whole registry state (trees and cache) unchanged. -/
theorem addFunction_err_unchanged (s : OFun Ty) (f : Func Ty) :
    (addFunction issub emptyAnn s f).2 = true → (addFunction issub emptyAnn s f).1 = s := by
  rw [addFunction]
  split
  · intro hc; cases hc
  · rename_i h hl
    split
    · rename_i he
      intro _
      rw [push_err_unchanged issub emptyAnn f h he]
      cases s
      simp only [OFun.mk.injEq, and_true]
      exact alookup_aset_self _ _ _ hl
    · intro hc; cases hc

/-- A successful `add_function` clears the whole resolution cache. -/
theorem addFunction_ok_cache (s : OFun Ty) (f : Func Ty) :
    (addFunction issub emptyAnn s f).2 = false → (addFunction issub emptyAnn s f).1.cache = [] := by
  rw [addFunction]
  split
  · intro _; rfl
  · split
    · intro hc; cases hc
    · intro _; rfl

/-- On an empty cache, `__call__` resolves through the tree. -/
theorem call_cold (s : OFun Ty) (types : List Ty) (hc : s.cache = []) :
    (call issub emptyAnn s types).2 = coldResolve issub emptyAnn s.functions types := by
  rw [call, hc, coldResolve]
  simp only [alookup]
  split
  · rfl
  · split <;> rename_i hf <;> rw [hf]

end BasicLemmas

section CallLemmas

variable {Ty : Type} [DecidableEq Ty] (issub : Ty → Ty → Bool) (emptyAnn : Ty)

/-- An invocation that raises `FunctionNotFound` leaves the state (and in
particular the cache) unchanged. -/
theorem call_none_unchanged (s : OFun Ty) (types : List Ty) :
    (call issub emptyAnn s types).2 = none → (call issub emptyAnn s types).1 = s := by
  rw [call]
  split
  · intro hc; cases hc
  · split
    · intro _; rfl
    · split
      · intro _; rfl
      · intro hc; cases hc

/-- Lookup failure: `FunctionHeap.find` fails exactly when a concrete root rejects the types
or the descent ends at a virtual node. -/
theorem find_none_iff (types : List Ty) (h : Heap Ty) :
    Heap.find issub emptyAnn types h = none ↔
      ((∃ r, h.root = some r ∧ checkTypes issub emptyAnn (some r) types = false) ∨
        (Heap.descend issub emptyAnn types h).root = none) := by
  rw [Heap.find]
  split
  · rename_i hcond
    simp only [Bool.and_eq_true, Bool.not_eq_true'] at hcond
    constructor
    · intro _
      left
      rcases Option.isSome_iff_exists.mp hcond.1 with ⟨r, hr⟩
      refine ⟨r, hr, ?_⟩
      rw [← hr]
      exact hcond.2
    · intro _; rfl
  · rename_i hcond
    simp only [Bool.and_eq_true, Bool.not_eq_true', not_and] at hcond
    constructor
    · intro hd
      right
      exact hd
    · rintro (⟨r, hr, hchk⟩ | hd)
      · exfalso
        have h1 : h.root.isSome = true := by rw [hr]; rfl
        have h2 := hcond h1
        rw [hr] at h2
        exact h2 hchk
      · exact hd

/-- A successful `find` returns the representative of the node where the
descent stopped. -/
theorem find_some_descend (types : List Ty) (h : Heap Ty) (f : Func Ty) :
    Heap.find issub emptyAnn types h = some f →
      (Heap.descend issub emptyAnn types h).root = some f := by
  rw [Heap.find]
  split
  · intro hc; cases hc
  · exact id

/-- Every cache entry of a reachable registry state maps a type tuple to the
function that `find` on the current tree returns for it. -/
theorem cache_sound : ∀ s : OFun Ty, Reach issub emptyAnn s →
    ∀ p ∈ s.cache, ∃ h, alookup p.1.length s.functions = some h ∧
      Heap.find issub emptyAnn p.1 h = some p.2 := by
  intro s hs
  induction hs with
  | init => intro p hp; cases hp
  | add s' f _ ih =>
    cases he : (addFunction issub emptyAnn s' f).2 with
    | true =>
      rw [addFunction_err_unchanged issub emptyAnn s' f he]
      exact ih
    | false =>
      intro p hp
      rw [addFunction_ok_cache issub emptyAnn s' f he] at hp
      cases hp
  | invoke s' types _ ih =>
    cases hcc : alookup types s'.cache with
    | some f =>
      have h1 : (call issub emptyAnn s' types).1 = s' := by
        simp only [call, hcc]
      rw [h1]
      exact ih
    | none =>
      cases hcf : alookup types.length s'.functions with
      | none =>
        have h1 : (call issub emptyAnn s' types).1 = s' := by
          simp only [call, hcc, hcf]
        rw [h1]
        exact ih
      | some h =>
        cases hff : Heap.find issub emptyAnn types h with
        | none =>
          have h1 : (call issub emptyAnn s' types).1 = s' := by
            simp only [call, hcc, hcf, hff]
          rw [h1]
          exact ih
        | some f =>
          have h1 : (call issub emptyAnn s' types).1 =
              { functions := s'.functions, cache := aset types f s'.cache } := by
            simp only [call, hcc, hcf, hff]
          rw [h1]
          intro p hp
          rcases mem_aset types f s'.cache p hp with hnew | hold
          · rw [hnew]
            exact ⟨h, hcf, hff⟩
          · exact ih p hold

end CallLemmas

section TabLemmas

variable {Ty : Type} [DecidableEq Ty] (issub : Ty → Ty → Bool) (emptyAnn : Ty)

theorem zip_self_all (sa : List Ty) :
    (sa.zip sa).all (fun p => decide (p.1 = p.2)) = true := by
  induction sa with
  | nil => rfl
  | cons a t ih => simp [List.zip_cons_cons, ih]

theorem sigEqTab_self (sa : List Ty) : sigEqTab issub emptyAnn sa sa = true := by
  rw [sigEqTab, if_pos (zip_self_all sa)]

end TabLemmas

section SpecSetLemmas

variable {Ty : Type} [DecidableEq Ty] (issub : Ty → Ty → Bool) (emptyAnn : Ty)

theorem zip_all_eq_iff (sa : List Ty) : ∀ sb : List Ty, sa.length = sb.length →
    (((sa.zip sb).all fun p => decide (p.1 = p.2)) = true ↔ sa = sb) := by
  induction sa with
  | nil =>
    intro sb hlen
    cases sb with
    | nil => simp
    | cons b u => simp at hlen
  | cons a t ih =>
    intro sb hlen
    cases sb with
    | nil => simp at hlen
    | cons b u =>
      have hlen' : t.length = u.length := by simpa using hlen
      simp [ih u hlen', List.cons.injEq, Bool.and_eq_true, decide_eq_true_eq]

theorem or_eq_left_iff (x y : Bool) : ((x || y) = x) ↔ (y = true → x = true) := by
  cases x <;> cases y <;> simp

theorem or_eq_right_iff (x y : Bool) : ((x || y) = y) ↔ (x = true → y = true) := by
  cases x <;> cases y <;> simp

theorem forall_diffs_iff (l : List (Ty × Ty)) (Q : Ty × Ty → Prop) :
    (∀ p ∈ l.filter (fun p => decide (p.1 ≠ p.2)), Q p) ↔
      ∀ p ∈ l, p.1 ≠ p.2 → Q p := by
  constructor
  · intro h p hp hne
    exact h p (List.mem_filter.mpr ⟨hp, by simpa using hne⟩)
  · intro h p hp
    rcases List.mem_filter.mp hp with ⟨hmem, hne⟩
    exact h p hmem (by simpa using hne)

/-- The row-table test of `_func_eq`, characterised pointwise: over the
differing positions, the combined row equals row 1 iff "B more specific"
implies "A more specific" positionwise, and symmetrically for row 2. -/
theorem sigEqTab_iff_pointwise (sa sb : List Ty) (hlen : sa.length = sb.length) :
    sigEqTab issub emptyAnn sa sb = true ↔
      (sa = sb ∨
        (¬(∀ p ∈ sa.zip sb, p.1 ≠ p.2 →
            annCmp issub emptyAnn p.1 p.2 = true → annCmp issub emptyAnn p.2 p.1 = true) ∧
         ¬(∀ p ∈ sa.zip sb, p.1 ≠ p.2 →
            annCmp issub emptyAnn p.2 p.1 = true → annCmp issub emptyAnn p.1 p.2 = true))) := by
  rw [sigEqTab]
  split
  · rename_i hall
    constructor
    · intro _
      exact Or.inl ((zip_all_eq_iff sa sb hlen).mp hall)
    · intro _
      rfl
  · rename_i hnall
    have hne : ¬(sa = sb) := by
      intro hcontra
      subst hcontra
      exact hnall (zip_self_all sa)
    simp only [Bool.not_eq_true', Bool.or_eq_false_iff, decide_eq_false_iff_not]
    constructor
    · rintro ⟨h1, h2⟩
      refine Or.inr ⟨?_, ?_⟩
      · intro hP
        apply h2
        rw [List.map_inj_left]
        intro p hp
        rcases List.mem_filter.mp hp with ⟨hmem, hnep⟩
        exact (or_eq_right_iff _ _).mpr (hP p hmem (by simpa using hnep))
      · intro hP
        apply h1
        rw [List.map_inj_left]
        intro p hp
        rcases List.mem_filter.mp hp with ⟨hmem, hnep⟩
        exact (or_eq_left_iff _ _).mpr (hP p hmem (by simpa using hnep))
    · rintro (hcontra | ⟨hP2, hP1⟩)
      · exact absurd hcontra hne
      · refine ⟨?_, ?_⟩
        · intro hc
          apply hP1
          rw [List.map_inj_left] at hc
          intro p hp hnep
          exact (or_eq_left_iff _ _).mp
            (hc p (List.mem_filter.mpr ⟨hp, by simpa using hnep⟩))
        · intro hc
          apply hP2
          rw [List.map_inj_left] at hc
          intro p hp hnep
          exact (or_eq_right_iff _ _).mp
            (hc p (List.mem_filter.mpr ⟨hp, by simpa using hnep⟩))

theorem moreSpecSet_subset_iff (sa sb : List Ty) :
    (moreSpecSet issub emptyAnn sa sb ⊆ moreSpecSet issub emptyAnn sb sa) ↔
      ∀ p ∈ sa.zip sb, p.1 ≠ p.2 →
        annCmp issub emptyAnn p.1 p.2 = true → annCmp issub emptyAnn p.2 p.1 = true := by
  constructor
  · intro hsub p hp hne hcmp
    rcases List.mem_iff_getElem?.mp hp with ⟨i, hpi⟩
    have hiA : i ∈ moreSpecSet issub emptyAnn sa sb := by
      rw [moreSpecSet, Finset.mem_filter, Finset.mem_range]
      refine ⟨(List.getElem?_eq_some_iff.mp hpi).1, ?_⟩
      rw [specAtB, hpi]
      simp [hne, hcmp]
    have hiB := hsub hiA
    rw [moreSpecSet, Finset.mem_filter] at hiB
    have hspec := hiB.2
    rw [specAtB] at hspec
    have hswap : (sb.zip sa)[i]? = some (p.2, p.1) := by
      rw [← List.zip_swap sa sb, List.getElem?_map, hpi]
      rfl
    rw [hswap] at hspec
    simp at hspec
    exact hspec.2
  · intro hpt i hi
    rw [moreSpecSet, Finset.mem_filter, Finset.mem_range] at hi
    rcases hi with ⟨hir, hspec⟩
    rw [specAtB] at hspec
    cases hgi : (sa.zip sb)[i]? with
    | none =>
      rw [hgi] at hspec
      cases hspec
    | some p =>
      rw [hgi] at hspec
      simp at hspec
      have hp : p ∈ sa.zip sb := List.mem_iff_getElem?.mpr ⟨i, hgi⟩
      have h21 := hpt p hp hspec.1 hspec.2
      rw [moreSpecSet, Finset.mem_filter, Finset.mem_range]
      have hlen2 : (sb.zip sa).length = (sa.zip sb).length := by
        rw [← List.zip_swap sa sb, List.length_map]
      refine ⟨by rw [hlen2]; exact hir, ?_⟩
      rw [specAtB]
      have hswap : (sb.zip sa)[i]? = some (p.2, p.1) := by
        rw [← List.zip_swap sa sb, List.getElem?_map, hgi]
        rfl
      rw [hswap]
      simp [Ne.symm hspec.1, h21]

theorem forall_swap_zip (sa sb : List Ty) (Q : Ty × Ty → Prop) :
    (∀ p ∈ sb.zip sa, Q p) ↔ ∀ p ∈ sa.zip sb, Q (p.2, p.1) := by
  rw [← List.zip_swap sa sb]
  exact List.forall_mem_map

/-- The `_func_eq` table test on two distinct same-arity functions holds
exactly when the signatures are identical or the two more-specific position
sets are subset-incomparable. -/
theorem funcEqCore_char (A B : Func Ty) (hAB : A ≠ B)
    (hlen : A.sig.length = B.sig.length) :
    funcEqCore issub emptyAnn A B = true ↔
      (A.sig = B.sig ∨
        (¬ moreSpecSet issub emptyAnn A.sig B.sig ⊆ moreSpecSet issub emptyAnn B.sig A.sig ∧
         ¬ moreSpecSet issub emptyAnn B.sig A.sig ⊆ moreSpecSet issub emptyAnn A.sig B.sig)) := by
  rw [funcEqCore, if_neg hAB, sigEqTab_iff_pointwise issub emptyAnn A.sig B.sig hlen]
  have hAsubB := moreSpecSet_subset_iff issub emptyAnn A.sig B.sig
  have hBsubA : (moreSpecSet issub emptyAnn B.sig A.sig ⊆ moreSpecSet issub emptyAnn A.sig B.sig) ↔
      ∀ p ∈ A.sig.zip B.sig, p.1 ≠ p.2 →
        annCmp issub emptyAnn p.2 p.1 = true → annCmp issub emptyAnn p.1 p.2 = true := by
    rw [moreSpecSet_subset_iff issub emptyAnn B.sig A.sig,
      forall_swap_zip A.sig B.sig]
    constructor
    · intro h p hp hne
      exact h p hp (Ne.symm hne)
    · intro h p hp hne
      exact h p hp (Ne.symm hne)
  rw [hAsubB, hBsubA]

end SpecSetLemmas

section InvLemmas

variable {Ty : Type} [DecidableEq Ty] (issub : Ty → Ty → Bool) (emptyAnn : Ty)

theorem funcCmp_some_none (g : Func Ty) : funcCmp issub emptyAnn (some g) none = true := rfl

theorem funcCmp_none_left (r : Option (Func Ty)) :
    funcCmp issub emptyAnn none r = false := by
  cases r <;> rfl

theorem funcCmp_isSome (r : Option (Func Ty)) (f : Func Ty)
    (h : funcCmp issub emptyAnn r (some f) = true) : ∃ rc, r = some rc := by
  cases r with
  | none => rw [funcCmp_none_left] at h; cases h
  | some rc => exact ⟨rc, rfl⟩

theorem funcCmp_some_some (g rc : Func Ty)
    (h : funcCmp issub emptyAnn (some g) (some rc) = true) :
    g ≠ rc ∧ sigCmp issub emptyAnn g.sig rc.sig = true := by
  rw [funcCmp] at h
  split at h
  · cases h
  · rename_i hne
    refine ⟨fun hc => hne (by rw [hc]), h⟩

theorem sigCmp_of_parts (g rc : Func Ty) (hne : g ≠ rc)
    (h : sigCmp issub emptyAnn g.sig rc.sig = true) :
    funcCmp issub emptyAnn (some g) (some rc) = true := by
  rw [funcCmp]
  split
  · rename_i hc
    exact absurd hc hne
  · exact h

theorem sigCmp_trans (htr : ∀ x y z : Ty, issub x y = true → issub y z = true → issub x z = true)
    (hemp : ∀ t : Ty, t ≠ emptyAnn → issub emptyAnn t = false) :
    ∀ sa sb sc : List Ty, sa.length = sb.length → sb.length = sc.length →
      sigCmp issub emptyAnn sa sb = true → sigCmp issub emptyAnn sb sc = true →
      sigCmp issub emptyAnn sa sc = true := by
  intro sa
  induction sa with
  | nil =>
    intro sb sc _ _ _ _
    rfl
  | cons a ta ih =>
    intro sb sc hl1 hl2 h1 h2
    cases sb with
    | nil => simp at hl1
    | cons b tb =>
      cases sc with
      | nil => simp at hl2
      | cons c tc =>
        rw [sigCmp, List.zip_cons_cons, List.all_cons, Bool.and_eq_true] at h1 h2 ⊢
        refine ⟨?_, ih tb tc (by simpa using hl1) (by simpa using hl2) h1.2 h2.2⟩
        have hh1 := h1.1
        have hh2 := h2.1
        simp only [Bool.or_eq_true, decide_eq_true_eq] at hh1 hh2 ⊢
        by_cases hce : c = emptyAnn
        · exact Or.inr (Or.inl hce)
        rcases hh2 with hbc | hce2 | hsbc
        · rcases hh1 with hab | hbe | hsab
          · exact Or.inl (hab.trans hbc)
          · exact absurd (hbe ▸ hbc : emptyAnn = c) (Ne.symm hce)
          · exact Or.inr (Or.inr (hbc ▸ hsab))
        · exact absurd hce2 hce
        · rcases hh1 with hab | hbe | hsab
          · exact Or.inr (Or.inr (hab ▸ hsbc))
          · rw [hbe] at hsbc
            exact absurd hsbc (by rw [hemp c hce]; exact Bool.false_ne_true)
          · exact Or.inr (Or.inr (htr a b c hsab hsbc))

/-- Domination-or-equality is transitive through a concrete middle
function, given transitivity of `issubclass` and the sentinel being
narrower than nothing. -/
theorem domEq_trans (htr : ∀ x y z : Ty, issub x y = true → issub y z = true → issub x z = true)
    (hemp : ∀ t : Ty, t ≠ emptyAnn → issub emptyAnn t = false)
    (n : Nat) (g rc f : Func Ty)
    (hg : g.sig.length = n) (hrc : rc.sig.length = n) (hf : f.sig.length = n)
    (h1 : some g = some rc ∨ funcCmp issub emptyAnn (some g) (some rc) = true)
    (h2 : funcCmp issub emptyAnn (some rc) (some f) = true) :
    some g = some f ∨ funcCmp issub emptyAnn (some g) (some f) = true := by
  rcases h1 with heq | hcmp
  · injection heq with heq
    exact Or.inr (heq ▸ h2)
  · rcases funcCmp_some_some issub emptyAnn g rc hcmp with ⟨-, hs1⟩
    rcases funcCmp_some_some issub emptyAnn rc f h2 with ⟨-, hs2⟩
    have hs := sigCmp_trans issub emptyAnn htr hemp g.sig rc.sig f.sig
      (by rw [hg, hrc]) (by rw [hrc, hf]) hs1 hs2
    by_cases hgf : g = f
    · exact Or.inl (by rw [hgf])
    · exact Or.inr (sigCmp_of_parts issub emptyAnn g f hgf hs)

theorem varsF_append : ∀ s t : Forest Ty,
    Forest.varsF (s.append t) = Forest.varsF s ++ Forest.varsF t
  | .nil, t => by simp [Forest.append, Forest.varsF]
  | .cons c s, t => by
    simp [Forest.append, Forest.varsF, varsF_append s t]

theorem invBF_append : ∀ s t : Forest Ty,
    Forest.invBF issub emptyAnn (s.append t) =
      (Forest.invBF issub emptyAnn s && Forest.invBF issub emptyAnn t)
  | .nil, t => by simp [Forest.append, Forest.invBF]
  | .cons c s, t => by
    simp [Forest.append, Forest.invBF, invBF_append s t, Bool.and_assoc]

theorem varsF_mem : ∀ t : Forest Ty, ∀ g ∈ Forest.varsF t,
    ∃ c ∈ Forest.toList t, g ∈ Heap.vars c
  | .nil => by intro g hg; cases hg
  | .cons c t => by
    intro g hg
    rw [Forest.varsF] at hg
    rcases List.mem_append.mp hg with h | h
    · exact ⟨c, List.mem_cons_self _ _, h⟩
    · rcases varsF_mem t g h with ⟨c', hc', hg'⟩
      exact ⟨c', List.mem_cons_of_mem _ hc', hg'⟩

theorem vars_subset_varsF : ∀ t : Forest Ty, ∀ c ∈ Forest.toList t,
    ∀ g ∈ Heap.vars c, g ∈ Forest.varsF t
  | .nil => by intro c hc; cases hc
  | .cons d t => by
    intro c hc g hg
    rw [Forest.toList] at hc
    rw [Forest.varsF]
    rcases List.mem_cons.mp hc with h | h
    · exact List.mem_append.mpr (Or.inl (h ▸ hg))
    · exact List.mem_append.mpr (Or.inr (vars_subset_varsF t c h g hg))

theorem invBF_mem : ∀ t : Forest Ty, Forest.invBF issub emptyAnn t = true →
    ∀ c ∈ Forest.toList t, Heap.invB issub emptyAnn c = true
  | .nil => by intro _ c hc; cases hc
  | .cons d t => by
    intro hinv c hc
    rw [Forest.invBF, Bool.and_eq_true] at hinv
    rcases List.mem_cons.mp hc with h | h
    · exact h ▸ hinv.1
    · exact invBF_mem t hinv.2 c h

/-- A fresh single-variant node satisfies the tree-order invariant. -/
theorem invB_leaf (f : Func Ty) :
    Heap.invB issub emptyAnn (Heap.node (some f) .nil) = true := by
  simp [Heap.invB, Heap.vars, Forest.varsF, Forest.invBF]

end InvLemmas

section VarsPush

variable {Ty : Type} [DecidableEq Ty] (issub : Ty → Ty → Bool) (emptyAnn : Ty)

theorem mem_vars_node (r : Option (Func Ty)) (cs : Forest Ty) (g : Func Ty) :
    g ∈ Heap.vars (Heap.node r cs) ↔ (r = some g ∨ g ∈ Forest.varsF cs) := by
  cases r with
  | none =>
    rw [Heap.vars]
    simp
  | some rr =>
    rw [Heap.vars]
    rw [List.mem_cons]
    constructor
    · rintro (h | h)
      · exact Or.inl (by rw [h])
      · exact Or.inr h
    · rintro (h | h)
      · exact Or.inl (by injection h with h; exact h.symm)
      · exact Or.inr h

/-- Every variant present after a push is the pushed function or was already
present (tree level and child-list level). -/
theorem vars_push (f : Func Ty) :
    (∀ h : Heap Ty, ∀ g ∈ Heap.vars (Heap.push issub emptyAnn f h).1,
      g = f ∨ g ∈ Heap.vars h)
    ∧ (∀ t : Forest Ty, ∀ t' e, Forest.pushInto issub emptyAnn f t = some (t', e) →
      ∀ g ∈ Forest.varsF t', g = f ∨ g ∈ Forest.varsF t) := by
  refine ⟨Heap.indMut
      (fun h => ∀ g ∈ Heap.vars (Heap.push issub emptyAnn f h).1,
        g = f ∨ g ∈ Heap.vars h)
      (fun t => ∀ t' e, Forest.pushInto issub emptyAnn f t = some (t', e) →
        ∀ g ∈ Forest.varsF t', g = f ∨ g ∈ Forest.varsF t)
      ?hnode ?hnil ?hcons,
    Forest.indMut
      (fun h => ∀ g ∈ Heap.vars (Heap.push issub emptyAnn f h).1,
        g = f ∨ g ∈ Heap.vars h)
      (fun t => ∀ t' e, Forest.pushInto issub emptyAnn f t = some (t', e) →
        ∀ g ∈ Forest.varsF t', g = f ∨ g ∈ Forest.varsF t)
      ?hnode ?hnil ?hcons⟩
  case hnil => intro t' e hsome; cases hsome
  case hnode =>
    intro r cs ih
    rw [push_node]
    split
    · intro g hg; exact Or.inr hg
    · split
      · split
        · rename_i hr _
          intro g hg
          rcases (mem_vars_node (some f) cs g).mp hg with h | h
          · exact Or.inl (by injection h with h; exact h.symm)
          · exact Or.inr ((mem_vars_node r cs g).mpr (Or.inr h))
        · intro g hg; exact Or.inr hg
      · split
        · split
          · intro g hg; exact Or.inr hg
          · split
            · rename_i cs2 e2 hm
              intro g hg
              rcases (mem_vars_node r cs2 g).mp hg with h | h
              · exact Or.inr ((mem_vars_node r cs g).mpr (Or.inl h))
              · rcases ih cs2 e2 hm g h with h' | h'
                · exact Or.inl h'
                · exact Or.inr ((mem_vars_node r cs g).mpr (Or.inr h'))
            · intro g hg
              rcases (mem_vars_node r _ g).mp hg with h | h
              · exact Or.inr ((mem_vars_node r cs g).mpr (Or.inl h))
              · rw [varsF_append] at h
                rcases List.mem_append.mp h with h' | h'
                · exact Or.inr ((mem_vars_node r cs g).mpr (Or.inr h'))
                · simp only [Forest.varsF, List.append_nil] at h'
                  rcases (mem_vars_node (some f) Forest.nil g).mp h' with h2 | h2
                  · exact Or.inl (by injection h2 with h2; exact h2.symm)
                  · cases h2
        · split
          · intro g hg
            rcases (mem_vars_node (some f) _ g).mp hg with h | h
            · exact Or.inl (by injection h with h; exact h.symm)
            · simp only [Forest.varsF, List.append_nil] at h
              exact Or.inr h
          · intro g hg
            rcases (mem_vars_node none _ g).mp hg with h | h
            · cases h
            · simp only [Forest.varsF, List.append_nil] at h
              rcases List.mem_append.mp h with h' | h'
              · exact Or.inr h'
              · rcases (mem_vars_node (some f) Forest.nil g).mp h' with h2 | h2
                · exact Or.inl (by injection h2 with h2; exact h2.symm)
                · cases h2
  case hcons =>
    intro c t ihc iht t' e
    rw [Forest.pushInto]
    split
    · intro hsome
      cases hsome
      intro g hg
      rw [Forest.varsF] at hg
      rcases List.mem_append.mp hg with h | h
      · rcases ihc g h with h' | h'
        · exact Or.inl h'
        · exact Or.inr (by rw [Forest.varsF]; exact List.mem_append.mpr (Or.inl h'))
      · exact Or.inr (by rw [Forest.varsF]; exact List.mem_append.mpr (Or.inr h))
    · split
      · rename_i t2 e2 hm
        intro hsome
        cases hsome
        intro g hg
        rw [Forest.varsF] at hg
        rcases List.mem_append.mp hg with h | h
        · exact Or.inr (by rw [Forest.varsF]; exact List.mem_append.mpr (Or.inl h))
        · rcases iht t2 _ hm g h with h' | h'
          · exact Or.inl h'
          · exact Or.inr (by rw [Forest.varsF]; exact List.mem_append.mpr (Or.inr h'))
      · intro hsome; cases hsome

/-- Arity uniformity is preserved by push. -/
theorem unifB_push (n : Nat) (f : Func Ty) (hf : f.sig.length = n) :
    ∀ h : Heap Ty, Heap.unifB n h = true →
      Heap.unifB n (Heap.push issub emptyAnn f h).1 = true := by
  intro h hu
  rw [Heap.unifB, List.all_eq_true]
  rw [Heap.unifB, List.all_eq_true] at hu
  intro g hg
  rcases (vars_push issub emptyAnn f).1 h g hg with h' | h'
  · simp [h', hf]
  · exact hu g h'

end VarsPush

section InvPush

variable {Ty : Type} [DecidableEq Ty] (issub : Ty → Ty → Bool) (emptyAnn : Ty)

theorem invB_node_iff (r : Option (Func Ty)) (cs : Forest Ty) :
    Heap.invB issub emptyAnn (Heap.node r cs) = true ↔
      ((∀ g ∈ Heap.vars (Heap.node r cs),
        (some g = r ∨ funcCmp issub emptyAnn (some g) r = true)) ∧
       Forest.invBF issub emptyAnn cs = true) := by
  rw [Heap.invB, Bool.and_eq_true, List.all_eq_true]
  constructor
  · rintro ⟨h1, h2⟩
    refine ⟨?_, h2⟩
    intro g hg
    have := h1 g hg
    simpa using this
  · rintro ⟨h1, h2⟩
    refine ⟨?_, h2⟩
    intro g hg
    simpa using h1 g hg

theorem unifBF_of_node (n : Nat) (r : Option (Func Ty)) (cs : Forest Ty)
    (hu : Heap.unifB n (Heap.node r cs) = true) : Forest.unifBF n cs = true := by
  rw [Heap.unifB, List.all_eq_true] at hu
  rw [Forest.unifBF, List.all_eq_true]
  intro g hg
  exact hu g ((mem_vars_node r cs g).mpr (Or.inr hg))

theorem unifBF_cons (n : Nat) (c : Heap Ty) (t : Forest Ty) :
    Forest.unifBF n (.cons c t) = true ↔
      (Heap.unifB n c = true ∧ Forest.unifBF n t = true) := by
  rw [Forest.unifBF, Heap.unifB, Forest.unifBF, Forest.varsF, List.all_append,
    Bool.and_eq_true]

/-- The tree-order invariant is preserved by every push (successful or
raising), at the tree level and at the child-list level. -/
theorem invB_push (htr : ∀ x y z : Ty, issub x y = true → issub y z = true → issub x z = true)
    (hemp : ∀ t : Ty, t ≠ emptyAnn → issub emptyAnn t = false)
    (n : Nat) (f : Func Ty) (hf : f.sig.length = n) :
    ∀ h : Heap Ty, Heap.unifB n h = true → Heap.invB issub emptyAnn h = true →
      Heap.invB issub emptyAnn (Heap.push issub emptyAnn f h).1 = true := by
  refine Heap.indMut
    (fun h => Heap.unifB n h = true → Heap.invB issub emptyAnn h = true →
      Heap.invB issub emptyAnn (Heap.push issub emptyAnn f h).1 = true)
    (fun t => Forest.unifBF n t = true → Forest.invBF issub emptyAnn t = true →
      ∀ t' e, Forest.pushInto issub emptyAnn f t = some (t', e) →
        Forest.invBF issub emptyAnn t' = true)
    ?hnode ?hnil ?hcons
  case hnode =>
    intro r cs ih hu hi
    have hi' := (invB_node_iff issub emptyAnn r cs).mp hi
    have hu' : ∀ g ∈ Heap.vars (Heap.node r cs), g.sig.length = n := by
      rw [Heap.unifB, List.all_eq_true] at hu
      intro g hg
      simpa using hu g hg
    rw [push_node]
    split
    · exact hi
    · split
      · rename_i hr
        subst hr
        split
        · rename_i hall
          rw [invB_node_iff]
          refine ⟨?_, hi'.2⟩
          intro g hg
          rcases (mem_vars_node (some f) cs g).mp hg with h | h
          · exact Or.inl h.symm
          · rcases varsF_mem cs g h with ⟨c, hcmem, hgc⟩
            rw [List.all_eq_true] at hall
            have hcall := hall c hcmem
            rcases funcCmp_isSome issub emptyAnn c.root f hcall with ⟨rc, hrcq⟩
            have hinvc := invBF_mem issub emptyAnn cs hi'.2 c hcmem
            cases c with
            | node rc2 csc =>
              rw [Heap.root] at hrcq
              subst hrcq
              have hdom := ((invB_node_iff issub emptyAnn (some rc) csc).mp hinvc).1 g hgc
              have hrcmem : rc ∈ Forest.varsF cs :=
                vars_subset_varsF cs (Heap.node (some rc) csc) hcmem rc
                  ((mem_vars_node (some rc) csc rc).mpr (Or.inl rfl))
              have hglen : g.sig.length = n :=
                hu' g ((mem_vars_node none cs g).mpr (Or.inr h))
              have hrclen : rc.sig.length = n :=
                hu' rc ((mem_vars_node none cs rc).mpr (Or.inr hrcmem))
              exact domEq_trans issub emptyAnn htr hemp n g rc f hglen hrclen hf hdom hcall
        · exact hi
      · split
        · rename_i hcmpf
          split
          · exact hi
          · split
            · rename_i cs2 e2 hm
              rw [invB_node_iff]
              constructor
              · intro g hg
                rcases (mem_vars_node r cs2 g).mp hg with h | h
                · exact Or.inl h.symm
                · rcases (vars_push issub emptyAnn f).2 cs cs2 e2 hm g h with h' | h'
                  · subst h'
                    exact Or.inr hcmpf
                  · exact hi'.1 g ((mem_vars_node r cs g).mpr (Or.inr h'))
              · exact ih (unifBF_of_node n r cs hu) hi'.2 cs2 e2 hm
            · rw [invB_node_iff]
              constructor
              · intro g hg
                rcases (mem_vars_node r _ g).mp hg with h | h
                · exact Or.inl h.symm
                · rw [varsF_append] at h
                  rcases List.mem_append.mp h with h' | h'
                  · exact hi'.1 g ((mem_vars_node r cs g).mpr (Or.inr h'))
                  · simp only [Forest.varsF, List.append_nil] at h'
                    rcases (mem_vars_node (some f) Forest.nil g).mp h' with h2 | h2
                    · have hgf : g = f := by injection h2 with h2; exact h2.symm
                      subst hgf
                      exact Or.inr hcmpf
                    · cases h2
              · rw [invBF_append, Bool.and_eq_true]
                refine ⟨hi'.2, ?_⟩
                rw [Forest.invBF, Bool.and_eq_true]
                exact ⟨invB_leaf issub emptyAnn f, rfl⟩
        · split
          · rename_i hcmprf
            rw [invB_node_iff]
            constructor
            · intro g hg
              rcases (mem_vars_node (some f) _ g).mp hg with h | h
              · exact Or.inl h.symm
              · simp only [Forest.varsF, List.append_nil] at h
                have hdom := hi'.1 g h
                rcases funcCmp_isSome issub emptyAnn r f hcmprf with ⟨rr, hrr⟩
                subst hrr
                have hglen : g.sig.length = n := hu' g h
                have hrrlen : rr.sig.length = n :=
                  hu' rr ((mem_vars_node (some rr) cs rr).mpr (Or.inl rfl))
                exact domEq_trans issub emptyAnn htr hemp n g rr f hglen hrrlen hf hdom hcmprf
            · rw [Forest.invBF, Bool.and_eq_true]
              exact ⟨hi, rfl⟩
          · rw [invB_node_iff]
            constructor
            · intro g hg
              rcases (mem_vars_node none _ g).mp hg with h | h
              · cases h
              · exact Or.inr (funcCmp_some_none issub emptyAnn g)
            · rw [Forest.invBF, Bool.and_eq_true, Forest.invBF, Bool.and_eq_true]
              exact ⟨hi, invB_leaf issub emptyAnn f, rfl⟩
  case hnil =>
    intro _ _ t' e hsome
    cases hsome
  case hcons =>
    intro c t ihc iht hu hi t' e
    rcases (unifBF_cons n c t).mp hu with ⟨huc, hut⟩
    rw [Forest.invBF, Bool.and_eq_true] at hi
    rw [Forest.pushInto]
    split
    · intro hsome
      cases hsome
      rw [Forest.invBF, Bool.and_eq_true]
      exact ⟨ihc huc hi.1, hi.2⟩
    · split
      · rename_i t2 e2 hm
        intro hsome
        cases hsome
        rw [Forest.invBF, Bool.and_eq_true]
        exact ⟨hi.1, iht hut hi.2 t2 _ hm⟩
      · intro hsome
        cases hsome

end InvPush

section ClaimSix

variable {Ty : Type} [DecidableEq Ty] (issub : Ty → Ty → Bool) (emptyAnn : Ty)

/-- C6: pushing onto a node whose representative is the virtual marker either
promotes the variant to representative (children unchanged, when every
child's representative dominates it) or silently drops it, leaving the whole
heap unchanged; no error is raised in either case. -/
theorem claimC6 : ∀ (f : Func Ty) (cs : Forest Ty),
    Heap.push issub emptyAnn f (.node none cs) =
      (if (Forest.toList cs).all (fun c => funcCmp issub emptyAnn c.root (some f))
        then Heap.node (some f) cs else Heap.node none cs, false) := by
  intro f cs
  rw [push_node]
  rw [if_neg (by rw [funcEq_some_none]; exact Bool.false_ne_true)]
  rw [if_pos rfl]
  split <;> rfl

end ClaimSix

section ClaimsAbstract

variable {Ty : Type} [DecidableEq Ty] (issub : Ty → Ty → Bool) (emptyAnn : Ty)

/-- C7: registration is all-or-nothing on ambiguity: whenever `push` raises
`AmbiguousFunction` (at any recursion depth) the dispatch tree is exactly as
it was before the call, and when the error propagates out of `add_function`
the whole registry state, resolution cache included, is unchanged. -/
theorem claimC7 :
    (∀ (h : Heap Ty) (f : Func Ty),
      (Heap.push issub emptyAnn f h).2 = true → (Heap.push issub emptyAnn f h).1 = h)
    ∧ ∀ (s : OFun Ty) (f : Func Ty),
      (addFunction issub emptyAnn s f).2 = true → (addFunction issub emptyAnn s f).1 = s :=
  ⟨fun h f => push_err_unchanged issub emptyAnn f h,
   fun s f => addFunction_err_unchanged issub emptyAnn s f⟩

/-- C8: invocation raises `FunctionNotFound` exactly when the type tuple is
not cached and either no variant of the call's arity was registered, or the
arity tree's root is concrete and rejects the types, or the descent ends at
a node with the virtual marker; a successful invocation returns a cached
function or the concrete representative of the node where the descent
stopped (never the virtual marker). -/
theorem claimC8 (s : OFun Ty) (types : List Ty) :
    ((call issub emptyAnn s types).2 = none ↔
      alookup types s.cache = none ∧
        (alookup types.length s.functions = none ∨
          ∃ h, alookup types.length s.functions = some h ∧
            ((∃ r, h.root = some r ∧ checkTypes issub emptyAnn (some r) types = false) ∨
              (Heap.descend issub emptyAnn types h).root = none)))
    ∧ (∀ f, (call issub emptyAnn s types).2 = some f →
        alookup types s.cache = some f ∨
          ∃ h, alookup types.length s.functions = some h ∧
            (Heap.descend issub emptyAnn types h).root = some f) := by
  constructor
  · cases hcc : alookup types s.cache with
    | some f =>
      have h2 : (call issub emptyAnn s types).2 = some f := by simp only [call, hcc]
      rw [h2]
      simp
    | none =>
      cases hcf : alookup types.length s.functions with
      | none =>
        have h2 : (call issub emptyAnn s types).2 = none := by simp only [call, hcc, hcf]
        rw [h2]
        simp
      | some h =>
        cases hff : Heap.find issub emptyAnn types h with
        | none =>
          have h2 : (call issub emptyAnn s types).2 = none := by
            simp only [call, hcc, hcf, hff]
          rw [h2]
          constructor
          · intro _
            exact ⟨rfl, Or.inr ⟨h, rfl, (find_none_iff issub emptyAnn types h).mp hff⟩⟩
          · intro _; rfl
        | some f =>
          have h2 : (call issub emptyAnn s types).2 = some f := by
            simp only [call, hcc, hcf, hff]
          rw [h2]
          constructor
          · intro hc; cases hc
          · rintro ⟨-, hnone | ⟨h', hh', hfail⟩⟩
            · cases hnone
            · cases hh'
              have hcontra := (find_none_iff issub emptyAnn types h).mpr hfail
              rw [hff] at hcontra
              cases hcontra
  · intro f hf
    cases hcc : alookup types s.cache with
    | some g =>
      have h2 : (call issub emptyAnn s types).2 = some g := by simp only [call, hcc]
      rw [h2] at hf
      cases hf
      exact Or.inl rfl
    | none =>
      cases hcf : alookup types.length s.functions with
      | none =>
        have h2 : (call issub emptyAnn s types).2 = none := by simp only [call, hcc, hcf]
        rw [h2] at hf
        cases hf
      | some h =>
        cases hff : Heap.find issub emptyAnn types h with
        | none =>
          have h2 : (call issub emptyAnn s types).2 = none := by
            simp only [call, hcc, hcf, hff]
          rw [h2] at hf
          cases hf
        | some g =>
          have h2 : (call issub emptyAnn s types).2 = some g := by
            simp only [call, hcc, hcf, hff]
          rw [h2] at hf
          cases hf
          exact Or.inr ⟨h, rfl, find_some_descend issub emptyAnn types h _ hff⟩

/-- C9: every successful `add_function` clears the entire resolution cache,
so the next invocation with any type tuple re-resolves through the tree. -/
theorem claimC9 (s : OFun Ty) (w : Func Ty)
    (hok : (addFunction issub emptyAnn s w).2 = false) :
    (addFunction issub emptyAnn s w).1.cache = [] ∧
    ∀ types, (call issub emptyAnn (addFunction issub emptyAnn s w).1 types).2 =
      coldResolve issub emptyAnn (addFunction issub emptyAnn s w).1.functions types := by
  have hc := addFunction_ok_cache issub emptyAnn s w hok
  exact ⟨hc, fun types => call_cold issub emptyAnn _ types hc⟩

/-- C10: an invocation that raises `FunctionNotFound` leaves the cache (and
the whole state) unchanged, and in every reachable state the cache only maps
a type tuple to the function a successful tree lookup returns for it. -/
theorem claimC10 :
    (∀ (s : OFun Ty) (types : List Ty),
      (call issub emptyAnn s types).2 = none → (call issub emptyAnn s types).1 = s)
    ∧ ∀ s : OFun Ty, Reach issub emptyAnn s →
        ∀ p ∈ s.cache, ∃ h, alookup p.1.length s.functions = some h ∧
          Heap.find issub emptyAnn p.1 h = some p.2 :=
  ⟨call_none_unchanged issub emptyAnn, cache_sound issub emptyAnn⟩

end ClaimsAbstract

theorem claimC7_witness :
    (Heap.push pyIssub PyTy.empty fAnyStr (Heap.node (some fIntAny) Forest.nil)).1 =
      Heap.node (some fIntAny) Forest.nil :=
  (claimC7 pyIssub PyTy.empty).1 _ fAnyStr (by decide)

theorem claimC8_witness :
    alookup [PyTy.float, PyTy.str] sOneInt2.cache = none ∧
      (alookup ([PyTy.float, PyTy.str] : List PyTy).length sOneInt2.functions = none ∨
        ∃ h, alookup ([PyTy.float, PyTy.str] : List PyTy).length sOneInt2.functions = some h ∧
          ((∃ r, h.root = some r ∧
              checkTypes pyIssub PyTy.empty (some r) [PyTy.float, PyTy.str] = false) ∨
            (Heap.descend pyIssub PyTy.empty [PyTy.float, PyTy.str] h).root = none)) :=
  (claimC8 pyIssub PyTy.empty sOneInt2 [PyTy.float, PyTy.str]).1.mp (by decide)

theorem claimC9_witness :
    (addFunction pyIssub PyTy.empty sCachedInt wInt).1.cache = [] ∧
    (call pyIssub PyTy.empty (addFunction pyIssub PyTy.empty sCachedInt wInt).1
      [PyTy.int]).2 = some wInt := by
  have h := claimC9 pyIssub PyTy.empty sCachedInt wInt (by decide)
  refine ⟨h.1, ?_⟩
  rw [h.2 [PyTy.int]]
  decide

theorem claimC10_witness :
    (call pyIssub PyTy.empty ofInit [PyTy.int]).1 = ofInit ∧
    ∃ h, alookup ([PyTy.int] : List PyTy).length sCachedInt.functions = some h ∧
      Heap.find pyIssub PyTy.empty [PyTy.int] h = some rAny := by
  constructor
  · exact (claimC10 pyIssub PyTy.empty).1 ofInit [PyTy.int] (by decide)
  · exact (claimC10 pyIssub PyTy.empty).2 sCachedInt
      (Reach.invoke _ _ (Reach.add _ _ Reach.init)) ([PyTy.int], rAny) (by decide)

/-- C1 (counterexample): in the stated scenario the three registrations do
not all succeed: registering `f(a, b:str)` after `f(a:int, b)` already
raises `AmbiguousFunction`. -/
theorem claimC1_counterexample :
    (addFunction pyIssub PyTy.empty (addFunction pyIssub PyTy.empty ofInit fIntAny).1
      fAnyStr).2 = true := by decide

/-- C1 (amended): registering `f(a, b:str)` after `f(a:int, b)` raises
`AmbiguousFunction`, so the three variants cannot all be registered under
one name; registering `f(a:int, b)` then `f(a:int, b:str)` succeeds, after
which invoking with `(int, str)` resolves to the doubly-specific variant,
invoking with `(int, float)` resolves to `f(a:int, b)`, and invoking with
`(float, str)` or `(float, float)` raises `FunctionNotFound`. -/
theorem claimC1 :
    (addFunction pyIssub PyTy.empty (addFunction pyIssub PyTy.empty ofInit fIntAny).1
      fAnyStr).2 = true ∧
    (addFunction pyIssub PyTy.empty ofInit fIntAny).2 = false ∧
    (addFunction pyIssub PyTy.empty (addFunction pyIssub PyTy.empty ofInit fIntAny).1
      fIntStr).2 = false ∧
    (call pyIssub PyTy.empty sC1 [PyTy.int, PyTy.str]).2 = some fIntStr ∧
    (call pyIssub PyTy.empty sC1 [PyTy.int, PyTy.float]).2 = some fIntAny ∧
    (call pyIssub PyTy.empty sC1 [PyTy.float, PyTy.str]).2 = none ∧
    (call pyIssub PyTy.empty sC1 [PyTy.float, PyTy.float]).2 = none := by decide

section ClaimTwo

variable {Ty : Type} [DecidableEq Ty] (issub : Ty → Ty → Bool) (emptyAnn : Ty)

/-- C2: pushing a variant constraining only parameter 2 onto a variant
constraining only parameter 1 raises `AmbiguousFunction` and leaves the tree
unchanged (for any constraints that are genuine classes, i.e. of which the
annotation sentinel is not a subclass); pushing a variant with an identical
signature also raises it; in particular registering `g(a:int, b)` then
`g(a, b:int)` raises it. -/
theorem claimC2 :
    (∀ (a b : Ty) (X Y : Func Ty), a ≠ emptyAnn → b ≠ emptyAnn →
      issub emptyAnn a = false → issub emptyAnn b = false →
      X.sig = [a, emptyAnn] → Y.sig = [emptyAnn, b] →
      Heap.push issub emptyAnn Y (.node (some X) .nil) = (.node (some X) .nil, true))
    ∧ (∀ X Z : Func Ty, Z.sig = X.sig →
      Heap.push issub emptyAnn Z (.node (some X) .nil) = (.node (some X) .nil, true))
    ∧ (addFunction pyIssub PyTy.empty (addFunction pyIssub PyTy.empty ofInit gIntAny).1
        gAnyInt).2 = true := by
  refine ⟨?_, ?_, by decide⟩
  · intro a b X Y ha hb hia hib hX hY
    have hYX : Y ≠ X := by
      intro hcontra
      rw [hcontra, hX] at hY
      injection hY with h1 _
      exact ha h1
    have hEq : funcEq issub emptyAnn (some Y) (some X) = true := by
      show funcEqCore issub emptyAnn Y X = true
      rw [funcEqCore, if_neg hYX, hY, hX, sigEqTab]
      simp [annCmp, ha, hb, Ne.symm ha, Ne.symm hb, hia, hib]
    rw [push_node, if_pos hEq]
  · intro X Z hsig
    have hEq : funcEq issub emptyAnn (some Z) (some X) = true := by
      show funcEqCore issub emptyAnn Z X = true
      rw [funcEqCore]
      split
      · rfl
      · rw [hsig]
        exact sigEqTab_self issub emptyAnn X.sig
    rw [push_node, if_pos hEq]

end ClaimTwo

theorem claimC2_witness :
    Heap.push pyIssub PyTy.empty gAnyInt (Heap.node (some gIntAny) Forest.nil) =
      (Heap.node (some gIntAny) Forest.nil, true) :=
  (claimC2 pyIssub PyTy.empty).1 PyTy.int PyTy.int gIntAny gAnyInt
    (by decide) (by decide) (by decide) (by decide) rfl rfl

/-- C4 (code gap): registering `p(a:int)`, `q(a:str)`, then `a(a:bool)` all
succeed (the third is silently dropped at the virtual root), `a` strictly
dominates `p`, both accept a `bool` argument, yet invocation with `bool`
resolves to `p` — the dominated variant — contradicting monotonic
refinement. -/
theorem claimC4_failing :
    (addFunction pyIssub PyTy.empty ofInit pInt).2 = false ∧
    (addFunction pyIssub PyTy.empty (addFunction pyIssub PyTy.empty ofInit pInt).1
      qStr).2 = false ∧
    (addFunction pyIssub PyTy.empty
      (addFunction pyIssub PyTy.empty
        (addFunction pyIssub PyTy.empty ofInit pInt).1 qStr).1 aBool).2 = false ∧
    funcCmp pyIssub PyTy.empty (some aBool) (some pInt) = true ∧
    checkTypes pyIssub PyTy.empty (some aBool) [PyTy.bool] = true ∧
    checkTypes pyIssub PyTy.empty (some pInt) [PyTy.bool] = true ∧
    (call pyIssub PyTy.empty sC4 [PyTy.bool]).2 = some pInt := by decide

section ClaimsThreeFive

variable {Ty : Type} [DecidableEq Ty] (issub : Ty → Ty → Bool) (emptyAnn : Ty)

/-- C3: for two distinct same-arity functions, the `_func_eq` ambiguity test
holds exactly when the signatures are identical at every position or the two
sets of differing positions at which each is pointwise more specific are
mutually non-inclusive; the test is symmetric. -/
theorem claimC3 (A B : Func Ty) (hAB : A ≠ B) (hlen : A.sig.length = B.sig.length) :
    (funcEqCore issub emptyAnn A B = true ↔
      (A.sig = B.sig ∨
        (¬ moreSpecSet issub emptyAnn A.sig B.sig ⊆ moreSpecSet issub emptyAnn B.sig A.sig ∧
         ¬ moreSpecSet issub emptyAnn B.sig A.sig ⊆ moreSpecSet issub emptyAnn A.sig B.sig)))
    ∧ funcEqCore issub emptyAnn A B = funcEqCore issub emptyAnn B A := by
  have hA := funcEqCore_char issub emptyAnn A B hAB hlen
  have hB := funcEqCore_char issub emptyAnn B A (Ne.symm hAB) hlen.symm
  refine ⟨hA, ?_⟩
  rw [Bool.eq_iff_iff]
  show funcEqCore issub emptyAnn A B = true ↔ funcEqCore issub emptyAnn B A = true
  rw [hA, hB]
  constructor
  · rintro (h | ⟨h1, h2⟩)
    · exact Or.inl h.symm
    · exact Or.inr ⟨h2, h1⟩
  · rintro (h | ⟨h1, h2⟩)
    · exact Or.inl h.symm
    · exact Or.inr ⟨h2, h1⟩

/-- C5: a fresh one-variant heap satisfies the tree-order invariant, and the
invariant (together with arity uniformity) is preserved by every push,
assuming `issubclass` is transitive and nothing but the sentinel is below
the sentinel. -/
theorem claimC5 :
    (∀ f0 : Func Ty, Heap.invB issub emptyAnn (Heap.node (some f0) .nil) = true)
    ∧ ∀ (n : Nat) (f : Func Ty) (h : Heap Ty),
        (∀ x y z : Ty, issub x y = true → issub y z = true → issub x z = true) →
        (∀ t : Ty, t ≠ emptyAnn → issub emptyAnn t = false) →
        f.sig.length = n → Heap.unifB n h = true → Heap.invB issub emptyAnn h = true →
        (Heap.invB issub emptyAnn (Heap.push issub emptyAnn f h).1 = true ∧
         Heap.unifB n (Heap.push issub emptyAnn f h).1 = true) :=
  ⟨invB_leaf issub emptyAnn,
   fun n f h htr hemp hf hu hi =>
     ⟨invB_push issub emptyAnn htr hemp n f hf h hu hi,
      unifB_push issub emptyAnn n f hf h hu⟩⟩

end ClaimsThreeFive

theorem claimC3_witness :
    funcEqCore pyIssub PyTy.empty gIntAny gAnyInt = funcEqCore pyIssub PyTy.empty gAnyInt gIntAny ∧
    (gIntAny.sig = gAnyInt.sig ∨
      (¬ moreSpecSet pyIssub PyTy.empty gIntAny.sig gAnyInt.sig ⊆
          moreSpecSet pyIssub PyTy.empty gAnyInt.sig gIntAny.sig ∧
       ¬ moreSpecSet pyIssub PyTy.empty gAnyInt.sig gIntAny.sig ⊆
          moreSpecSet pyIssub PyTy.empty gIntAny.sig gAnyInt.sig)) := by
  have h := claimC3 pyIssub PyTy.empty gIntAny gAnyInt (by decide) (by decide)
  exact ⟨h.2, h.1.mp (by decide)⟩

theorem claimC5_witness :
    Heap.invB pyIssub PyTy.empty
      (Heap.push pyIssub PyTy.empty qStr (Heap.node (some pInt) Forest.nil)).1 = true ∧
    Heap.unifB 1
      (Heap.push pyIssub PyTy.empty qStr (Heap.node (some pInt) Forest.nil)).1 = true :=
  (claimC5 pyIssub PyTy.empty).2 1 qStr (Heap.node (some pInt) Forest.nil)
    (by decide) (by decide) (by decide) (by decide) (by decide)

end Overload